import Mathlib

/-!
Shallow embedding of the invariant manager of stellar-core
(src/invariant/InvariantManagerImpl.cpp) together with proofs about
its registry, enablement list, dispatch loops and failure handler.

External effects (metric counters, log records, the exception raised by a
strict violation) are made explicit: every dispatch entry point returns the
updated counter sink, the ordered trace of observable events it produced,
and the message of the InvariantDoesNotHold exception when one was thrown.
-/

namespace Stellar

/-- Ledger header fields read by the manager (ledgerSeq and ledgerVersion
are uint32 in XDR; values here are the natural numbers they denote). -/
structure LedgerHeader where
  ledgerSeq : Nat
  ledgerVersion : Nat

/-- LedgerDelta as seen by the manager: only its header is read. -/
structure LedgerDelta where
  header : LedgerHeader

/-- TxSetFrame as seen by the manager: only its XDR serialization
(xdr_to_string of toXDR) appears, in diagnostic messages. -/
structure TxSetFrame where
  dump : String

/-- Operation as seen by the manager: only its XDR serialization appears,
in diagnostic messages. -/
structure Operation where
  dump : String

/-- OperationResult is passed through to checkers and never inspected. -/
structure OperationResult

/-- Bucket as seen by the manager: only binToHex of its hash appears,
in diagnostic messages. -/
structure Bucket where
  hashHex : String

/-- The Invariant capability contract: a name, a strictness flag fixed at
construction, and the three check operations, each returning the empty
string when the invariant holds. -/
structure Invariant where
  name : String
  isStrict : Bool
  checkOnLedgerClose : LedgerDelta → String
  checkOnBucketApply : Bucket → Nat → Nat → String
  checkOnOperationApply : Operation → OperationResult → LedgerDelta → String

/-- Observable external events of a dispatch call, in the order the code
produces them: a checker invocation at one of the three stages, a counter
increment on the metrics sink, and a log record at fatal or error severity. -/
inductive Event where
  | checkedLedgerClose (name : String)
  | checkedBucketApply (name : String) (oldest newest : Nat)
  | checkedOperationApply (name : String)
  | counterInc (name : String)
  | logFatal (message : String)
  | logError (message : String)
deriving DecidableEq

/-- The three std::runtime_error throw sites of configuration, told apart
by their throw site as the spec error taxonomy names them. -/
inductive ConfigError where
  | duplicateName (message : String)
  | unknownInvariant (message : String)
  | alreadyEnabled (message : String)
deriving DecidableEq

/-- The metrics sink: for each registered invariant name the counter keyed
("invariant", "does-not-hold", name); the fixed first two key components
are elided. -/
abbrev Counters := List (String × Nat)

/-- medida MetricsRegistry.NewCounter: returns the existing counter for the
key if present, otherwise creates it at zero. -/
def newCounter (cs : Counters) (name : String) : Counters :=
  match cs.lookup name with
  | some _ => cs
  | none => cs ++ [(name, 0)]

/-- Increment the counter stored under the key, leaving others alone. -/
def bumpCounter : Counters → String → Counters
  | [], _ => []
  | (k, v) :: rest, name =>
    if k = name then (k, v + 1) :: bumpCounter rest name
    else (k, v) :: bumpCounter rest name

/-- NewCounter(key).inc(): create the counter if absent, then increment the
counter stored under the key. -/
def incCounter (cs : Counters) (name : String) : Counters :=
  bumpCounter (newCounter cs name) name

/-- Value of the counter for a name, zero when it was never created. -/
def counterVal (cs : Counters) (name : String) : Nat :=
  (cs.lookup name).getD 0

/-- Whether a counter exists for the name on the metrics sink. -/
def hasCounter (cs : Counters) (name : String) : Bool :=
  (cs.lookup name).isSome

/-- InvariantManagerImpl::handleInvariantFailure: fatal log then throw for a
strict invariant, error log and normal return otherwise. Returns the log
events and the message of the thrown InvariantDoesNotHold, if any. -/
def handleInvariantFailure (invariant : Invariant) (message : String) :
    List Event × Option String :=
  if invariant.isStrict then
    ([Event.logFatal message], some message)
  else
    ([Event.logError message], none)

/-- InvariantManagerImpl::onInvariantFailure: increment the named counter on
the metrics sink, then delegate to handleInvariantFailure. Returns the
updated counters, the ordered event trace, and the raised condition. -/
def onInvariantFailure (cs : Counters) (invariant : Invariant)
    (message : String) : Counters × List Event × Option String :=
  let cs2 := incCounter cs invariant.name
  let handled := handleInvariantFailure invariant message
  (cs2, Event.counterInc invariant.name :: handled.1, handled.2)

/-- Diagnostic message of checkOnLedgerClose, the fmt::format string
R"(invariant "{}" does not hold on ledger {}: {}{}{})" filled with the
invariant name, ledger sequence, verdict, a newline and the serialized
transaction set. -/
def ledgerCloseMessage (invariant : Invariant) (delta : LedgerDelta)
    (txSet : TxSetFrame) (result : String) : String :=
  "invariant \"" ++ invariant.name ++ "\" does not hold on ledger "
    ++ toString delta.header.ledgerSeq ++ ": " ++ result ++ "\n" ++ txSet.dump

/-- Diagnostic message of checkOnBucketApply, the fmt::format string
R"(invariant "{}" does not hold on bucket {}[{}] = {}: {})" filled with the
invariant name, Curr or Snap, the level, the bucket hash and the verdict. -/
def bucketApplyMessage (invariant : Invariant) (isCurr : Bool) (level : Nat)
    (bucket : Bucket) (result : String) : String :=
  "invariant \"" ++ invariant.name ++ "\" does not hold on bucket "
    ++ (if isCurr then "Curr" else "Snap") ++ "[" ++ toString level ++ "] = "
    ++ bucket.hashHex ++ ": " ++ result

/-- Diagnostic message of checkOnOperationApply, the fmt::format string
R"(Invariant "{}" does not hold on operation: {}{}{})" filled with the
invariant name, the verdict, a newline and the serialized operation. -/
def operationApplyMessage (invariant : Invariant) (operation : Operation)
    (result : String) : String :=
  "Invariant \"" ++ invariant.name ++ "\" does not hold on operation: "
    ++ result ++ "\n" ++ operation.dump

/-- The loop body of InvariantManagerImpl::checkOnLedgerClose over mEnabled:
invoke each checker in order; a non-empty verdict goes to
onInvariantFailure, whose thrown InvariantDoesNotHold (strict case)
propagates and ends the loop. -/
def ledgerCloseLoop (txSet : TxSetFrame) (delta : LedgerDelta) :
    List Invariant → Counters → Counters × List Event × Option String
  | [], cs => (cs, [], none)
  | invariant :: rest, cs =>
    let result := invariant.checkOnLedgerClose delta
    if result = "" then
      let r := ledgerCloseLoop txSet delta rest cs
      (r.1, Event.checkedLedgerClose invariant.name :: r.2.1, r.2.2)
    else
      let message := ledgerCloseMessage invariant delta txSet result
      let f := onInvariantFailure cs invariant message
      match f.2.2 with
      | some e => (f.1, Event.checkedLedgerClose invariant.name :: f.2.1, some e)
      | none =>
        let r := ledgerCloseLoop txSet delta rest f.1
        (r.1, Event.checkedLedgerClose invariant.name :: (f.2.1 ++ r.2.1), r.2.2)

/-- The loop body of InvariantManagerImpl::checkOnBucketApply over mEnabled,
with the ledger range already computed before the loop. -/
def bucketApplyLoop (bucket : Bucket) (oldestLedger newestLedger : Nat)
    (level : Nat) (isCurr : Bool) :
    List Invariant → Counters → Counters × List Event × Option String
  | [], cs => (cs, [], none)
  | invariant :: rest, cs =>
    let result := invariant.checkOnBucketApply bucket oldestLedger newestLedger
    if result = "" then
      let r := bucketApplyLoop bucket oldestLedger newestLedger level isCurr rest cs
      (r.1, Event.checkedBucketApply invariant.name oldestLedger newestLedger :: r.2.1, r.2.2)
    else
      let message := bucketApplyMessage invariant isCurr level bucket result
      let f := onInvariantFailure cs invariant message
      match f.2.2 with
      | some e =>
        (f.1, Event.checkedBucketApply invariant.name oldestLedger newestLedger :: f.2.1, some e)
      | none =>
        let r := bucketApplyLoop bucket oldestLedger newestLedger level isCurr rest f.1
        (r.1, Event.checkedBucketApply invariant.name oldestLedger newestLedger :: (f.2.1 ++ r.2.1), r.2.2)

/-- The loop body of InvariantManagerImpl::checkOnOperationApply over
mEnabled (the protocol-version gate sits in front of this loop). -/
def operationApplyLoop (operation : Operation) (opres : OperationResult)
    (delta : LedgerDelta) :
    List Invariant → Counters → Counters × List Event × Option String
  | [], cs => (cs, [], none)
  | invariant :: rest, cs =>
    let result := invariant.checkOnOperationApply operation opres delta
    if result = "" then
      let r := operationApplyLoop operation opres delta rest cs
      (r.1, Event.checkedOperationApply invariant.name :: r.2.1, r.2.2)
    else
      let message := operationApplyMessage invariant operation result
      let f := onInvariantFailure cs invariant message
      match f.2.2 with
      | some e => (f.1, Event.checkedOperationApply invariant.name :: f.2.1, some e)
      | none =>
        let r := operationApplyLoop operation opres delta rest f.1
        (r.1, Event.checkedOperationApply invariant.name :: (f.2.1 ++ r.2.1), r.2.2)

/-- Modelled from the spec: the storage hierarchy aging formulas
BucketList::oldestLedgerInCurr, BucketList::oldestLedgerInSnap,
BucketList::sizeOfCurr and BucketList::sizeOfSnap live in
bucket/BucketList.cpp, outside the sources at hand; the spec treats them as
"an external formula treated as given", so they are parameters here. Each
takes the target ledger and the level and returns a uint32. -/
structure BucketListFormulas where
  oldestLedgerInCurr : Nat → Nat → Nat
  oldestLedgerInSnap : Nat → Nat → Nat
  sizeOfCurr : Nat → Nat → Nat
  sizeOfSnap : Nat → Nat → Nat

/-- The oldest ledger of the bucket segment: the formula for the chosen
half, reduced mod 2^32 to model its uint32 return type. -/
def bucketOldestLedger (bl : BucketListFormulas) (ledger level : Nat)
    (isCurr : Bool) : Nat :=
  (if isCurr then bl.oldestLedgerInCurr ledger level
   else bl.oldestLedgerInSnap ledger level) % 2 ^ 32

/-- The segment size of the chosen half, reduced mod 2^32 to model its
uint32 return type. -/
def bucketSegSize (bl : BucketListFormulas) (ledger level : Nat)
    (isCurr : Bool) : Nat :=
  (if isCurr then bl.sizeOfCurr ledger level
   else bl.sizeOfSnap ledger level) % 2 ^ 32

/-- uint32_t newestLedger = oldestLedger - 1 + size: two-complement
wraparound subtraction of 1 followed by addition, collapsed into a single
residue mod 2^32. -/
def bucketNewestLedger (bl : BucketListFormulas) (ledger level : Nat)
    (isCurr : Bool) : Nat :=
  (bucketOldestLedger bl ledger level isCurr + (2 ^ 32 - 1)
    + bucketSegSize bl ledger level isCurr) % 2 ^ 32

/-- The manager state: mInvariants is a std::map from name to invariant
(modelled as an association list kept sorted by key, matching std::map
iteration order), mEnabled is the std::vector of enabled invariants, and
counters is the metrics sink the manager writes to. -/
structure InvariantManagerImpl where
  mInvariants : List (String × Invariant)
  mEnabled : List Invariant
  counters : Counters

/-- Insertion into the sorted association list, as std::map operator[]
does: the key order is the lexicographic String order. -/
def mapInsert : List (String × Invariant) → String → Invariant →
    List (String × Invariant)
  | [], n, i => [(n, i)]
  | (k, v) :: rest, n, i =>
    if n < k then (n, i) :: (k, v) :: rest
    else if n = k then (n, i) :: rest
    else (k, v) :: mapInsert rest n i

/-- InvariantManagerImpl::registerInvariant: reject a name already in the
registry, otherwise store the invariant under its name and create its
zeroed failure counter on the metrics sink. The state after a throw is the
state before the call. -/
def registerInvariant (m : InvariantManagerImpl) (invariant : Invariant) :
    InvariantManagerImpl × Option ConfigError :=
  let name := invariant.name
  match m.mInvariants.lookup name with
  | none =>
    ({ m with
        mInvariants := mapInsert m.mInvariants name invariant,
        counters := newCounter m.counters invariant.name }, none)
  | some _ =>
    (m, some (ConfigError.duplicateName
        ("Invariant " ++ invariant.name ++ " already registered")))

/-- std::accumulate(next(cbegin), cend, cbegin->first, lhs + ", " + rhs.first)
over the registry: the first key, then ", " and each further key in map
iteration order. -/
def registeredNames : List (String × Invariant) → String
  | [] => ""
  | (k, _) :: rest => rest.foldl (fun acc p => acc ++ ", " ++ p.1) k

/-- InvariantManagerImpl::enableInvariant: an unknown name throws with a
message listing the registered names (or a none-registered marker); a name
whose registry entry is already in mEnabled throws; otherwise the registry
entry is appended to mEnabled. The shared_ptr equality used by std::find
coincides with name equality here because mEnabled only ever holds registry
values and registry names are unique. The state after a throw is the state
before the call. -/
def enableInvariant (m : InvariantManagerImpl) (name : String) :
    InvariantManagerImpl × Option ConfigError :=
  match m.mInvariants.lookup name with
  | none =>
    let message := "Invariant " ++ name ++ " is not registered."
    let message :=
      if m.mInvariants.length > 0 then
        message ++ " Registered invariants are: " ++ registeredNames m.mInvariants
      else
        message ++ " There are no registered invariants"
    (m, some (ConfigError.unknownInvariant message))
  | some invariant =>
    if m.mEnabled.any (fun j => j.name == invariant.name) then
      (m, some (ConfigError.alreadyEnabled
          ("Invariant " ++ name ++ " already enabled")))
    else
      ({ m with mEnabled := m.mEnabled ++ [invariant] }, none)

/-- InvariantManagerImpl::checkOnLedgerClose entry point. -/
def InvariantManagerImpl.checkOnLedgerClose (m : InvariantManagerImpl)
    (txSet : TxSetFrame) (delta : LedgerDelta) :
    Counters × List Event × Option String :=
  ledgerCloseLoop txSet delta m.mEnabled m.counters

/-- InvariantManagerImpl::checkOnBucketApply entry point: compute the
inclusive ledger range of the segment from level, ledger and half, then run
the loop. -/
def InvariantManagerImpl.checkOnBucketApply (m : InvariantManagerImpl)
    (bl : BucketListFormulas) (bucket : Bucket) (ledger level : Nat)
    (isCurr : Bool) : Counters × List Event × Option String :=
  bucketApplyLoop bucket (bucketOldestLedger bl ledger level isCurr)
    (bucketNewestLedger bl ledger level isCurr) level isCurr
    m.mEnabled m.counters

/-- InvariantManagerImpl::checkOnOperationApply entry point: below protocol
version 8 return at once, otherwise run the loop. -/
def InvariantManagerImpl.checkOnOperationApply (m : InvariantManagerImpl)
    (operation : Operation) (opres : OperationResult) (delta : LedgerDelta) :
    Counters × List Event × Option String :=
  if delta.header.ledgerVersion < 8 then
    (m.counters, [], none)
  else
    operationApplyLoop operation opres delta m.mEnabled m.counters

/-- Names of the ledger-close checker invocations in a trace, in order. -/
def checkedLCNames (evs : List Event) : List String :=
  evs.filterMap fun ev =>
    match ev with
    | Event.checkedLedgerClose nm => some nm
    | _ => none

/-- Names of the bucket-apply checker invocations in a trace, in order. -/
def checkedBucketNames (evs : List Event) : List String :=
  evs.filterMap fun ev =>
    match ev with
    | Event.checkedBucketApply nm _ _ => some nm
    | _ => none

/-- Names of the operation-apply checker invocations in a trace, in order. -/
def checkedOpNames (evs : List Event) : List String :=
  evs.filterMap fun ev =>
    match ev with
    | Event.checkedOperationApply nm => some nm
    | _ => none

/-- The well-formedness invariant of the manager state: registry keys are
strictly sorted (hence each name maps to at most one invariant), each
registry entry is stored under the name of the invariant it holds, every
enabled invariant is the registry value stored under its own name, and no
invariant is enabled twice. -/
def ManagerWF (m : InvariantManagerImpl) : Prop :=
  m.mInvariants.Pairwise (fun p q => p.1 < q.1)
  ∧ (∀ p ∈ m.mInvariants, p.2.name = p.1)
  ∧ (∀ i ∈ m.mEnabled, m.mInvariants.lookup i.name = some i)
  ∧ (m.mEnabled.map Invariant.name).Nodup

/-- A strict invariant named A whose three checks always report a
violation. -/
def strictA : Invariant :=
  ⟨"A", true, fun _ => "violated", fun _ _ _ => "violated",
   fun _ _ _ => "violated"⟩

/-- A non-strict invariant named B whose three checks always hold. -/
def benignB : Invariant :=
  ⟨"B", false, fun _ => "", fun _ _ _ => "", fun _ _ _ => ""⟩

/-- A non-strict invariant named C whose three checks always report a
violation. -/
def failC : Invariant :=
  ⟨"C", false, fun _ => "bad", fun _ _ _ => "bad", fun _ _ _ => "bad"⟩

/-- A ledger delta whose header has protocol version 7, under the
operation-apply threshold. -/
def deltaLow : LedgerDelta := ⟨⟨5, 7⟩⟩

/-- A ledger delta whose header has protocol version 10, at or above the
operation-apply threshold. -/
def deltaHigh : LedgerDelta := ⟨⟨5, 10⟩⟩

/-- A concrete transaction set. -/
def txSet0 : TxSetFrame := ⟨"txset"⟩

/-- A concrete operation. -/
def op0 : Operation := ⟨"op"⟩

/-- A concrete operation result. -/
def opres0 : OperationResult := ⟨⟩

/-- A concrete bucket. -/
def bucket0 : Bucket := ⟨"cafe"⟩

/-- Concrete storage-hierarchy formulas for witnesses: oldest 9 and size 4
on the Curr half, oldest 17 and size 8 on the Snap half. -/
def blTest : BucketListFormulas :=
  ⟨fun _ _ => 9, fun _ _ => 17, fun _ _ => 4, fun _ _ => 8⟩

/-- A manager with strict A and benign B registered and enabled. -/
def mAB : InvariantManagerImpl :=
  ⟨[("A", strictA), ("B", benignB)], [strictA, benignB], []⟩

/-- A manager with non-strict B and C registered and enabled. -/
def mBC : InvariantManagerImpl :=
  ⟨[("B", benignB), ("C", failC)], [benignB, failC], []⟩

/-- A manager with only benign B registered and enabled. -/
def mB : InvariantManagerImpl := ⟨[("B", benignB)], [benignB], []⟩

/-- A manager with B and C registered and only B enabled. -/
def mReg : InvariantManagerImpl :=
  ⟨[("B", benignB), ("C", failC)], [benignB], []⟩

/-- A concrete counter sink. -/
def cs0 : Counters := [("A", 3), ("B", 0)]

/-- A freshly constructed manager: empty registry, nothing enabled. -/
def mEmpty : InvariantManagerImpl := ⟨[], [], []⟩

/-- The comma-separated listing of a sequence of names, as the spec
describes the diagnostic listing of registered names. -/
def joinNames : List String → String
  | [] => ""
  | [k] => k
  | k :: rest => k ++ ", " ++ joinNames rest

theorem lookup_append_of_none {α : Type} [BEq α] {β : Type}
    (l₁ l₂ : List (α × β)) (a : α) (h : l₁.lookup a = none) :
    (l₁ ++ l₂).lookup a = l₂.lookup a := by
  induction l₁ with
  | nil => simp
  | cons p rest ih =>
    rw [List.lookup] at h
    cases hab : (a == p.1) with
    | true => rw [hab] at h; exact absurd h (by simp)
    | false =>
      rw [hab] at h
      show List.lookup a (p :: (rest ++ l₂)) = _
      rw [List.lookup, hab]
      exact ih h

theorem lookup_newCounter_self (cs : Counters) (n : String) :
    (newCounter cs n).lookup n = some (counterVal cs n) := by
  unfold newCounter counterVal
  cases h : cs.lookup n with
  | some v => simp [h]
  | none =>
    simp only [h, Option.getD_none]
    rw [lookup_append_of_none _ _ _ h]
    simp [List.lookup]

theorem lookup_newCounter_other (cs : Counters) (n m : String) (h : m ≠ n) :
    (newCounter cs n).lookup m = cs.lookup m := by
  unfold newCounter
  cases hl : cs.lookup n with
  | some v => rfl
  | none =>
    cases hm : cs.lookup m with
    | some v =>
      clear hl
      induction cs with
      | nil => simp [List.lookup] at hm
      | cons p rest ih =>
        rw [List.lookup] at hm
        show List.lookup m (p :: (rest ++ [(n, 0)])) = _
        rw [List.lookup]
        cases hmp : (m == p.1) with
        | true => rw [hmp] at hm; exact hm
        | false => rw [hmp] at hm; exact ih hm
    | none =>
      rw [lookup_append_of_none _ _ _ hm]
      simp [List.lookup, beq_eq_false_iff_ne.mpr h]

theorem lookup_bumpCounter (cs : Counters) (n m : String) :
    (bumpCounter cs n).lookup m
      = (cs.lookup m).map (fun v => if m = n then v + 1 else v) := by
  induction cs with
  | nil => rfl
  | cons p rest ih =>
    obtain ⟨k, v⟩ := p
    by_cases hk : k = n
    · rw [bumpCounter, if_pos hk]
      cases hb : (m == k) with
      | true =>
        have hmk : m = k := by simpa using hb
        subst hmk
        simp [List.lookup, hk]
      | false => simp [List.lookup, hb, ih]
    · rw [bumpCounter, if_neg hk]
      cases hb : (m == k) with
      | true =>
        have hmk : m = k := by simpa using hb
        subst hmk
        simp [List.lookup, hk]
      | false => simp [List.lookup, hb, ih]

theorem counterVal_incCounter_self (cs : Counters) (n : String) :
    counterVal (incCounter cs n) n = counterVal cs n + 1 := by
  unfold incCounter
  unfold counterVal
  rw [lookup_bumpCounter, lookup_newCounter_self]
  simp [counterVal]

theorem counterVal_incCounter_other (cs : Counters) (n m : String) (h : m ≠ n) :
    counterVal (incCounter cs n) m = counterVal cs m := by
  unfold incCounter counterVal
  rw [lookup_bumpCounter, lookup_newCounter_other cs n m h]
  simp [h]

theorem onInvariantFailure_eq (cs : Counters) (invariant : Invariant)
    (message : String) :
    onInvariantFailure cs invariant message
      = (incCounter cs invariant.name,
         Event.counterInc invariant.name ::
           (if invariant.isStrict then [Event.logFatal message]
            else [Event.logError message]),
         if invariant.isStrict then some message else none) := by
  unfold onInvariantFailure handleInvariantFailure
  cases invariant.isStrict <;> simp

theorem ledgerCloseLoop_cons (txSet : TxSetFrame) (delta : LedgerDelta)
    (invariant : Invariant) (rest : List Invariant) (cs : Counters) :
    ledgerCloseLoop txSet delta (invariant :: rest) cs
      = if invariant.checkOnLedgerClose delta = "" then
          let r := ledgerCloseLoop txSet delta rest cs
          (r.1, Event.checkedLedgerClose invariant.name :: r.2.1, r.2.2)
        else if invariant.isStrict then
          let msg := ledgerCloseMessage invariant delta txSet
            (invariant.checkOnLedgerClose delta)
          (incCounter cs invariant.name,
           [Event.checkedLedgerClose invariant.name,
            Event.counterInc invariant.name, Event.logFatal msg],
           some msg)
        else
          let msg := ledgerCloseMessage invariant delta txSet
            (invariant.checkOnLedgerClose delta)
          let r := ledgerCloseLoop txSet delta rest (incCounter cs invariant.name)
          (r.1, Event.checkedLedgerClose invariant.name ::
                  Event.counterInc invariant.name :: Event.logError msg :: r.2.1,
           r.2.2) := by
  by_cases h : invariant.checkOnLedgerClose delta = ""
  · simp [ledgerCloseLoop, h]
  · cases hs : invariant.isStrict <;>
      simp [ledgerCloseLoop, h, hs, onInvariantFailure_eq]

theorem bucketApplyLoop_cons (bucket : Bucket) (oldestLedger newestLedger : Nat)
    (level : Nat) (isCurr : Bool) (invariant : Invariant)
    (rest : List Invariant) (cs : Counters) :
    bucketApplyLoop bucket oldestLedger newestLedger level isCurr
        (invariant :: rest) cs
      = if invariant.checkOnBucketApply bucket oldestLedger newestLedger = "" then
          let r := bucketApplyLoop bucket oldestLedger newestLedger level isCurr rest cs
          (r.1, Event.checkedBucketApply invariant.name oldestLedger newestLedger :: r.2.1,
           r.2.2)
        else if invariant.isStrict then
          let msg := bucketApplyMessage invariant isCurr level bucket
            (invariant.checkOnBucketApply bucket oldestLedger newestLedger)
          (incCounter cs invariant.name,
           [Event.checkedBucketApply invariant.name oldestLedger newestLedger,
            Event.counterInc invariant.name, Event.logFatal msg],
           some msg)
        else
          let msg := bucketApplyMessage invariant isCurr level bucket
            (invariant.checkOnBucketApply bucket oldestLedger newestLedger)
          let r := bucketApplyLoop bucket oldestLedger newestLedger level isCurr rest
            (incCounter cs invariant.name)
          (r.1, Event.checkedBucketApply invariant.name oldestLedger newestLedger ::
                  Event.counterInc invariant.name :: Event.logError msg :: r.2.1,
           r.2.2) := by
  by_cases h : invariant.checkOnBucketApply bucket oldestLedger newestLedger = ""
  · simp [bucketApplyLoop, h]
  · cases hs : invariant.isStrict <;>
      simp [bucketApplyLoop, h, hs, onInvariantFailure_eq]

theorem operationApplyLoop_cons (operation : Operation) (opres : OperationResult)
    (delta : LedgerDelta) (invariant : Invariant) (rest : List Invariant)
    (cs : Counters) :
    operationApplyLoop operation opres delta (invariant :: rest) cs
      = if invariant.checkOnOperationApply operation opres delta = "" then
          let r := operationApplyLoop operation opres delta rest cs
          (r.1, Event.checkedOperationApply invariant.name :: r.2.1, r.2.2)
        else if invariant.isStrict then
          let msg := operationApplyMessage invariant operation
            (invariant.checkOnOperationApply operation opres delta)
          (incCounter cs invariant.name,
           [Event.checkedOperationApply invariant.name,
            Event.counterInc invariant.name, Event.logFatal msg],
           some msg)
        else
          let msg := operationApplyMessage invariant operation
            (invariant.checkOnOperationApply operation opres delta)
          let r := operationApplyLoop operation opres delta rest
            (incCounter cs invariant.name)
          (r.1, Event.checkedOperationApply invariant.name ::
                  Event.counterInc invariant.name :: Event.logError msg :: r.2.1,
           r.2.2) := by
  by_cases h : invariant.checkOnOperationApply operation opres delta = ""
  · simp [operationApplyLoop, h]
  · cases hs : invariant.isStrict <;>
      simp [operationApplyLoop, h, hs, onInvariantFailure_eq]

theorem lookup_mapInsert_self (l : List (String × Invariant)) (n : String)
    (i : Invariant) : (mapInsert l n i).lookup n = some i := by
  induction l with
  | nil => simp [mapInsert, List.lookup]
  | cons p rest ih =>
    obtain ⟨k, v⟩ := p
    by_cases hlt : n < k
    · simp [mapInsert, hlt, List.lookup]
    · by_cases heq : n = k
      · simp [mapInsert, hlt, heq, List.lookup]
      · simp [mapInsert, hlt, heq, List.lookup,
          beq_eq_false_iff_ne.mpr heq, ih]

theorem lookup_mapInsert_other (l : List (String × Invariant)) (n : String)
    (i : Invariant) (m : String) (h : m ≠ n) :
    (mapInsert l n i).lookup m = l.lookup m := by
  induction l with
  | nil => simp [mapInsert, List.lookup, beq_eq_false_iff_ne.mpr h]
  | cons p rest ih =>
    obtain ⟨k, v⟩ := p
    by_cases hlt : n < k
    · simp [mapInsert, hlt, List.lookup, beq_eq_false_iff_ne.mpr h]
    · by_cases heq : n = k
      · subst heq
        simp [mapInsert, hlt, List.lookup, beq_eq_false_iff_ne.mpr h]
      · by_cases hmk : m = k
        · subst hmk
          simp [mapInsert, hlt, heq, List.lookup]
        · simp [mapInsert, hlt, heq, List.lookup,
            beq_eq_false_iff_ne.mpr hmk, ih]

theorem mem_mapInsert (l : List (String × Invariant)) (n : String)
    (i : Invariant) (p : String × Invariant) :
    p ∈ mapInsert l n i → p = (n, i) ∨ p ∈ l := by
  induction l with
  | nil => simp [mapInsert]
  | cons q rest ih =>
    obtain ⟨k, v⟩ := q
    by_cases hlt : n < k
    · intro hp
      simp only [mapInsert, if_pos hlt, List.mem_cons] at hp
      rcases hp with h1 | h2 | h3
      · exact Or.inl h1
      · exact Or.inr (List.mem_cons.mpr (Or.inl h2))
      · exact Or.inr (List.mem_cons.mpr (Or.inr h3))
    · by_cases heq : n = k
      · intro hp
        simp only [mapInsert, if_neg hlt, if_pos heq, List.mem_cons] at hp
        rcases hp with h1 | h2
        · exact Or.inl h1
        · exact Or.inr (List.mem_cons.mpr (Or.inr h2))
      · intro hp
        simp only [mapInsert, if_neg hlt, if_neg heq, List.mem_cons] at hp
        rcases hp with h1 | h2
        · exact Or.inr (List.mem_cons.mpr (Or.inl h1))
        · rcases ih h2 with h3 | h4
          · exact Or.inl h3
          · exact Or.inr (List.mem_cons.mpr (Or.inr h4))

theorem pairwise_mapInsert (l : List (String × Invariant)) (n : String)
    (i : Invariant)
    (h : l.Pairwise (fun p q => p.1 < q.1)) :
    (mapInsert l n i).Pairwise (fun p q => p.1 < q.1) := by
  induction l with
  | nil => simp [mapInsert]
  | cons q rest ih =>
    obtain ⟨k, v⟩ := q
    rcases List.pairwise_cons.mp h with ⟨hk, hrest⟩
    by_cases hlt : n < k
    · rw [mapInsert, if_pos hlt]
      refine List.pairwise_cons.mpr ⟨?_, h⟩
      intro p hp
      rcases List.mem_cons.mp hp with h1 | h2
      · rw [h1]; exact hlt
      · exact lt_trans hlt (hk p h2)
    · by_cases heq : n = k
      · rw [mapInsert, if_neg hlt, if_pos heq]
        refine List.pairwise_cons.mpr ⟨?_, hrest⟩
        intro p hp
        rw [heq]
        exact hk p hp
      · rw [mapInsert, if_neg hlt, if_neg heq]
        refine List.pairwise_cons.mpr ⟨?_, ih hrest⟩
        intro p hp
        rcases mem_mapInsert rest n i p hp with h1 | h2
        · rw [h1]
          rcases lt_trichotomy n k with h3 | h3 | h3
          · exact absurd h3 hlt
          · exact absurd h3 heq
          · exact h3
        · exact hk p h2

theorem mem_of_lookup_eq_some {l : List (String × Invariant)} {a : String}
    {b : Invariant} (h : l.lookup a = some b) : (a, b) ∈ l := by
  induction l with
  | nil => simp [List.lookup] at h
  | cons p rest ih =>
    rw [List.lookup] at h
    cases hb : (a == p.1) with
    | true =>
      rw [hb] at h
      have ha : a = p.1 := by simpa using hb
      have hbv : b = p.2 := by simpa using h.symm
      rw [ha, hbv]
      exact List.mem_cons.mpr (Or.inl rfl)
    | false =>
      rw [hb] at h
      exact List.mem_cons.mpr (Or.inr (ih h))

theorem checkedLCNames_ledgerCloseLoop (txSet : TxSetFrame)
    (delta : LedgerDelta) :
    ∀ (l : List Invariant) (cs : Counters),
      (∀ i ∈ l, i.checkOnLedgerClose delta ≠ "" → i.isStrict = false) →
      checkedLCNames (ledgerCloseLoop txSet delta l cs).2.1
        = l.map Invariant.name := by
  intro l
  induction l with
  | nil => intro cs _; simp [ledgerCloseLoop, checkedLCNames]
  | cons inv rest ih =>
    intro cs h
    have hrest : ∀ i ∈ rest, i.checkOnLedgerClose delta ≠ "" → i.isStrict = false :=
      fun i hi => h i (List.mem_cons.mpr (Or.inr hi))
    rw [ledgerCloseLoop_cons]
    by_cases hres : inv.checkOnLedgerClose delta = ""
    · rw [if_pos hres]
      simp [checkedLCNames] at ih ⊢
      exact ih cs hrest
    · have hs : inv.isStrict = false := h inv (List.mem_cons.mpr (Or.inl rfl)) hres
      rw [if_neg hres, if_neg (by simp [hs])]
      simp [checkedLCNames] at ih ⊢
      exact ih (incCounter cs inv.name) hrest

theorem checkedOpNames_operationApplyLoop (operation : Operation)
    (opres : OperationResult) (delta : LedgerDelta) :
    ∀ (l : List Invariant) (cs : Counters),
      (∀ i ∈ l, i.checkOnOperationApply operation opres delta ≠ "" →
        i.isStrict = false) →
      checkedOpNames (operationApplyLoop operation opres delta l cs).2.1
        = l.map Invariant.name := by
  intro l
  induction l with
  | nil => intro cs _; simp [operationApplyLoop, checkedOpNames]
  | cons inv rest ih =>
    intro cs h
    have hrest : ∀ i ∈ rest,
        i.checkOnOperationApply operation opres delta ≠ "" → i.isStrict = false :=
      fun i hi => h i (List.mem_cons.mpr (Or.inr hi))
    rw [operationApplyLoop_cons]
    by_cases hres : inv.checkOnOperationApply operation opres delta = ""
    · rw [if_pos hres]
      simp [checkedOpNames] at ih ⊢
      exact ih cs hrest
    · have hs : inv.isStrict = false := h inv (List.mem_cons.mpr (Or.inl rfl)) hres
      rw [if_neg hres, if_neg (by simp [hs])]
      simp [checkedOpNames] at ih ⊢
      exact ih (incCounter cs inv.name) hrest

theorem checkedBucketNames_bucketApplyLoop (bucket : Bucket)
    (oldestLedger newestLedger level : Nat) (isCurr : Bool) :
    ∀ (l : List Invariant) (cs : Counters),
      (∀ i ∈ l, i.checkOnBucketApply bucket oldestLedger newestLedger ≠ "" →
        i.isStrict = false) →
      checkedBucketNames
          (bucketApplyLoop bucket oldestLedger newestLedger level isCurr l cs).2.1
        = l.map Invariant.name := by
  intro l
  induction l with
  | nil => intro cs _; simp [bucketApplyLoop, checkedBucketNames]
  | cons inv rest ih =>
    intro cs h
    have hrest : ∀ i ∈ rest,
        i.checkOnBucketApply bucket oldestLedger newestLedger ≠ "" →
          i.isStrict = false :=
      fun i hi => h i (List.mem_cons.mpr (Or.inr hi))
    rw [bucketApplyLoop_cons]
    by_cases hres : inv.checkOnBucketApply bucket oldestLedger newestLedger = ""
    · rw [if_pos hres]
      simp [checkedBucketNames] at ih ⊢
      exact ih cs hrest
    · have hs : inv.isStrict = false := h inv (List.mem_cons.mpr (Or.inl rfl)) hres
      rw [if_neg hres, if_neg (by simp [hs])]
      simp [checkedBucketNames] at ih ⊢
      exact ih (incCounter cs inv.name) hrest

theorem checkedLCNames_ledgerCloseLoop_take (txSet : TxSetFrame)
    (delta : LedgerDelta) :
    ∀ (l : List Invariant) (cs : Counters),
      ∃ k, checkedLCNames (ledgerCloseLoop txSet delta l cs).2.1
        = (l.map Invariant.name).take k := by
  intro l
  induction l with
  | nil => intro cs; exact ⟨0, by simp [ledgerCloseLoop, checkedLCNames]⟩
  | cons inv rest ih =>
    intro cs
    rw [ledgerCloseLoop_cons]
    by_cases hres : inv.checkOnLedgerClose delta = ""
    · rw [if_pos hres]
      obtain ⟨k, hk⟩ := ih cs
      refine ⟨k + 1, ?_⟩
      simp [checkedLCNames] at hk ⊢
      exact hk
    · rw [if_neg hres]
      by_cases hs : inv.isStrict = true
      · rw [if_pos hs]
        exact ⟨1, by simp [checkedLCNames]⟩
      · rw [if_neg hs]
        obtain ⟨k, hk⟩ := ih (incCounter cs inv.name)
        refine ⟨k + 1, ?_⟩
        simp [checkedLCNames] at hk ⊢
        exact hk

theorem checkedBucketNames_bucketApplyLoop_take (bucket : Bucket)
    (oldestLedger newestLedger level : Nat) (isCurr : Bool) :
    ∀ (l : List Invariant) (cs : Counters),
      ∃ k, checkedBucketNames
          (bucketApplyLoop bucket oldestLedger newestLedger level isCurr l cs).2.1
        = (l.map Invariant.name).take k := by
  intro l
  induction l with
  | nil => intro cs; exact ⟨0, by simp [bucketApplyLoop, checkedBucketNames]⟩
  | cons inv rest ih =>
    intro cs
    rw [bucketApplyLoop_cons]
    by_cases hres : inv.checkOnBucketApply bucket oldestLedger newestLedger = ""
    · rw [if_pos hres]
      obtain ⟨k, hk⟩ := ih cs
      refine ⟨k + 1, ?_⟩
      simp [checkedBucketNames] at hk ⊢
      exact hk
    · rw [if_neg hres]
      by_cases hs : inv.isStrict = true
      · rw [if_pos hs]
        exact ⟨1, by simp [checkedBucketNames]⟩
      · rw [if_neg hs]
        obtain ⟨k, hk⟩ := ih (incCounter cs inv.name)
        refine ⟨k + 1, ?_⟩
        simp [checkedBucketNames] at hk ⊢
        exact hk

theorem checkedOpNames_operationApplyLoop_take (operation : Operation)
    (opres : OperationResult) (delta : LedgerDelta) :
    ∀ (l : List Invariant) (cs : Counters),
      ∃ k, checkedOpNames (operationApplyLoop operation opres delta l cs).2.1
        = (l.map Invariant.name).take k := by
  intro l
  induction l with
  | nil => intro cs; exact ⟨0, by simp [operationApplyLoop, checkedOpNames]⟩
  | cons inv rest ih =>
    intro cs
    rw [operationApplyLoop_cons]
    by_cases hres : inv.checkOnOperationApply operation opres delta = ""
    · rw [if_pos hres]
      obtain ⟨k, hk⟩ := ih cs
      refine ⟨k + 1, ?_⟩
      simp [checkedOpNames] at hk ⊢
      exact hk
    · rw [if_neg hres]
      by_cases hs : inv.isStrict = true
      · rw [if_pos hs]
        exact ⟨1, by simp [checkedOpNames]⟩
      · rw [if_neg hs]
        obtain ⟨k, hk⟩ := ih (incCounter cs inv.name)
        refine ⟨k + 1, ?_⟩
        simp [checkedOpNames] at hk ⊢
        exact hk

theorem bucketApplyLoop_range_fixed (bucket : Bucket)
    (oldestLedger newestLedger level : Nat) (isCurr : Bool) :
    ∀ (l : List Invariant) (cs : Counters) (nm : String) (o n : Nat),
      Event.checkedBucketApply nm o n ∈
          (bucketApplyLoop bucket oldestLedger newestLedger level isCurr l cs).2.1 →
      o = oldestLedger ∧ n = newestLedger := by
  intro l
  induction l with
  | nil => intro cs nm o n h; simp [bucketApplyLoop] at h
  | cons inv rest ih =>
    intro cs nm o n h
    rw [bucketApplyLoop_cons] at h
    by_cases hres : inv.checkOnBucketApply bucket oldestLedger newestLedger = ""
    · rw [if_pos hres] at h
      simp only [List.mem_cons] at h
      rcases h with h1 | h2
      · simp only [Event.checkedBucketApply.injEq] at h1
        exact ⟨h1.2.1, h1.2.2⟩
      · exact ih cs nm o n h2
    · rw [if_neg hres] at h
      by_cases hs : inv.isStrict = true
      · rw [if_pos hs] at h
        simp only [List.mem_cons] at h
        rcases h with h1 | h2 | h3 | h4
        · simp only [Event.checkedBucketApply.injEq] at h1
          exact ⟨h1.2.1, h1.2.2⟩
        · exact absurd h2 (by simp)
        · exact absurd h3 (by simp)
        · simp at h4
      · rw [if_neg hs] at h
        simp only [List.mem_cons] at h
        rcases h with h1 | h2 | h3 | h4
        · simp only [Event.checkedBucketApply.injEq] at h1
          exact ⟨h1.2.1, h1.2.2⟩
        · exact absurd h2 (by simp)
        · exact absurd h3 (by simp)
        · exact ih (incCounter cs inv.name) nm o n h4

theorem bucketApplyLoop_covers (bucket : Bucket)
    (oldestLedger newestLedger level : Nat) (isCurr : Bool) :
    ∀ (l : List Invariant) (cs : Counters),
      (∀ i ∈ l, i.checkOnBucketApply bucket oldestLedger newestLedger ≠ "" →
        i.isStrict = false) →
      ∀ i ∈ l, Event.checkedBucketApply i.name oldestLedger newestLedger ∈
        (bucketApplyLoop bucket oldestLedger newestLedger level isCurr l cs).2.1 := by
  intro l
  induction l with
  | nil => intro cs _ i hi; simp at hi
  | cons inv rest ih =>
    intro cs h i hi
    have hrest : ∀ j ∈ rest,
        j.checkOnBucketApply bucket oldestLedger newestLedger ≠ "" →
          j.isStrict = false :=
      fun j hj => h j (List.mem_cons.mpr (Or.inr hj))
    rw [bucketApplyLoop_cons]
    by_cases hres : inv.checkOnBucketApply bucket oldestLedger newestLedger = ""
    · rw [if_pos hres]
      rcases List.mem_cons.mp hi with h1 | h2
      · subst h1
        exact List.mem_cons.mpr (Or.inl rfl)
      · exact List.mem_cons.mpr (Or.inr (ih cs hrest i h2))
    · have hs : inv.isStrict = false := h inv (List.mem_cons.mpr (Or.inl rfl)) hres
      rw [if_neg hres, if_neg (by simp [hs])]
      rcases List.mem_cons.mp hi with h1 | h2
      · subst h1
        exact List.mem_cons.mpr (Or.inl rfl)
      · refine List.mem_cons.mpr (Or.inr ?_)
        refine List.mem_cons.mpr (Or.inr ?_)
        refine List.mem_cons.mpr (Or.inr ?_)
        exact ih (incCounter cs inv.name) hrest i h2

theorem managerWF_mB : ManagerWF mB := by
  refine ⟨?_, ?_, ?_, ?_⟩
  · simp [mB]
  · intro p hp
    simp [mB] at hp
    rw [hp]
    rfl
  · intro i hi
    simp [mB] at hi
    rw [hi]
    rfl
  · simp [mB, benignB]

theorem managerWF_mReg : ManagerWF mReg := by
  refine ⟨?_, ?_, ?_, ?_⟩
  · simp [mReg]
    decide
  · intro p hp
    simp [mReg] at hp
    rcases hp with h1 | h1 <;> (rw [h1]; rfl)
  · intro i hi
    simp [mReg] at hi
    rw [hi]
    rfl
  · simp [mReg, benignB]

/-- C1: every violation event handed to the failure handler increments the
named failure counter exactly once regardless of strictness (value plus
one, every other counter untouched); the event trace places the counter
increment first, then for a strict invariant the fatal log of the full
message, after which and only after which the InvariantDoesNotHold
condition carrying the message is raised; for a non-strict invariant the
trace ends with an error log and nothing is raised. -/
theorem onInvariantFailure_counter_log_raise (cs : Counters) (inv : Invariant)
    (msg : String) :
    (onInvariantFailure cs inv msg).2.1
        = Event.counterInc inv.name ::
            (if inv.isStrict then [Event.logFatal msg] else [Event.logError msg])
    ∧ (onInvariantFailure cs inv msg).2.2
        = (if inv.isStrict then some msg else none)
    ∧ counterVal (onInvariantFailure cs inv msg).1 inv.name
        = counterVal cs inv.name + 1
    ∧ ∀ n, n ≠ inv.name →
        counterVal (onInvariantFailure cs inv msg).1 n = counterVal cs n := by
  rw [onInvariantFailure_eq]
  refine ⟨rfl, rfl, ?_, ?_⟩
  · exact counterVal_incCounter_self cs inv.name
  · intro n hn
    exact counterVal_incCounter_other cs inv.name n hn

theorem onInvariantFailure_counter_log_raise_witness :
    (onInvariantFailure cs0 strictA "boom").2.1
        = Event.counterInc strictA.name ::
            (if strictA.isStrict then [Event.logFatal "boom"]
             else [Event.logError "boom"])
    ∧ (onInvariantFailure cs0 strictA "boom").2.2
        = (if strictA.isStrict then some "boom" else none)
    ∧ counterVal (onInvariantFailure cs0 strictA "boom").1 strictA.name
        = counterVal cs0 strictA.name + 1
    ∧ counterVal (onInvariantFailure cs0 strictA "boom").1 "B"
        = counterVal cs0 "B" :=
  ⟨(onInvariantFailure_counter_log_raise cs0 strictA "boom").1,
   (onInvariantFailure_counter_log_raise cs0 strictA "boom").2.1,
   (onInvariantFailure_counter_log_raise cs0 strictA "boom").2.2.1,
   (onInvariantFailure_counter_log_raise cs0 strictA "boom").2.2.2 "B" (by decide)⟩

/-- C9: whenever registerInvariant or enableInvariant throws, the manager
state (registry, enablement list and counter sink alike) is exactly the
state before the call; in particular no counter is created for a rejected
registration. -/
theorem config_errors_atomic (m : InvariantManagerImpl) (inv : Invariant)
    (n : String) :
    ((registerInvariant m inv).2 ≠ none → (registerInvariant m inv).1 = m)
    ∧ ((enableInvariant m n).2 ≠ none → (enableInvariant m n).1 = m) := by
  constructor
  · intro h
    cases hl : m.mInvariants.lookup inv.name with
    | none =>
      exfalso
      apply h
      simp [registerInvariant, hl]
    | some v => simp [registerInvariant, hl]
  · intro h
    cases hl : m.mInvariants.lookup n with
    | none => simp [enableInvariant, hl]
    | some v =>
      cases ha : m.mEnabled.any (fun j => j.name == v.name) with
      | true => simp [enableInvariant, hl, ha]
      | false =>
        exfalso
        apply h
        simp [enableInvariant, hl, ha]

theorem config_errors_atomic_witness :
    (registerInvariant mAB strictA).1 = mAB
    ∧ (enableInvariant mAB "Z").1 = mAB :=
  ⟨(config_errors_atomic mAB strictA "Z").1 (by decide),
   (config_errors_atomic mAB strictA "Z").2 (by decide)⟩

/-- C10: the manager well-formedness invariant (enabled invariants are
registry values, no duplicate enablement, at most one registry entry per
name) is preserved by registerInvariant and enableInvariant, whether the
call succeeds or throws; since the freshly constructed manager trivially
satisfies it, it holds after every call sequence. -/
theorem manager_wf_preserved (m : InvariantManagerImpl) (inv : Invariant)
    (n : String) (h : ManagerWF m) :
    ManagerWF (registerInvariant m inv).1 ∧ ManagerWF (enableInvariant m n).1 := by
  obtain ⟨hsort, hkey, hen, hnodup⟩ := h
  constructor
  · cases hl : m.mInvariants.lookup inv.name with
    | some v =>
      have hm : (registerInvariant m inv).1 = m := by simp [registerInvariant, hl]
      rw [hm]
      exact ⟨hsort, hkey, hen, hnodup⟩
    | none =>
      simp only [registerInvariant, Option.some.injEq, hl]
      refine ⟨?_, ?_, ?_, ?_⟩
      · exact pairwise_mapInsert _ _ _ hsort
      · intro p hp
        rcases mem_mapInsert _ _ _ p hp with h1 | h2
        · rw [h1]
        · exact hkey p h2
      · intro i hi
        have hlk := hen i hi
        have hne : i.name ≠ inv.name := by
          intro he
          rw [he, hl] at hlk
          exact Option.noConfusion hlk
        rw [lookup_mapInsert_other _ _ _ _ hne]
        exact hlk
      · exact hnodup
  · cases hl : m.mInvariants.lookup n with
    | none =>
      have hm : (enableInvariant m n).1 = m := by simp [enableInvariant, hl]
      rw [hm]
      exact ⟨hsort, hkey, hen, hnodup⟩
    | some v =>
      cases ha : m.mEnabled.any (fun j => j.name == v.name) with
      | true =>
        have hm : (enableInvariant m n).1 = m := by simp [enableInvariant, hl, ha]
        rw [hm]
        exact ⟨hsort, hkey, hen, hnodup⟩
      | false =>
        have hm : (enableInvariant m n).1
            = { m with mEnabled := m.mEnabled ++ [v] } := by
          simp [enableInvariant, hl, ha]
        rw [hm]
        refine ⟨hsort, hkey, ?_, ?_⟩
        · intro i hi
          rcases List.mem_append.mp hi with h1 | h2
          · exact hen i h1
          · have hiv : i = v := by simpa using h2
            subst hiv
            have hv : i.name = n := hkey (n, i) (mem_of_lookup_eq_some hl)
            rw [hv]
            exact hl
        · rw [List.map_append]
          refine List.Nodup.append hnodup (by simp) ?_
          intro a h1 h2
          simp only [List.map_cons, List.map_nil, List.mem_singleton] at h2
          rcases List.mem_map.mp h1 with ⟨j, hj, hja⟩
          have hfalse := (List.any_eq_false.mp ha) j hj
          apply hfalse
          simp [hja, h2]

theorem manager_wf_preserved_witness :
    ManagerWF (registerInvariant mB failC).1
    ∧ ManagerWF (enableInvariant mB "B").1 :=
  manager_wf_preserved mB failC "B" managerWF_mB

/-- C2 counterexample: with strict A enabled before benign B, a ledger
close on which A reports a violation raises InvariantDoesNotHold out of
the loop, so the check of B — enabled at the same stage — never runs. -/
theorem strict_failure_stops_ledger_close_dispatch :
    "B" ∈ mAB.mEnabled.map Invariant.name
    ∧ Event.checkedLedgerClose "B"
        ∉ (mAB.checkOnLedgerClose txSet0 deltaHigh).2.1 := by
  refine ⟨by decide, by decide⟩

/-- C2 (amended): a non-strict invariant returning a non-empty verdict
never prevents the remaining invariants from being checked: when every
failing enabled invariant is non-strict (and, for the operation stage, the
protocol version is at least 8), each stage checks exactly the full
enablement list in order; a strict failure, by contrast, halts the stage. -/
theorem nonstrict_failures_never_stop_dispatch
    (m : InvariantManagerImpl) (txSet : TxSetFrame) (delta : LedgerDelta)
    (operation : Operation) (opres : OperationResult)
    (bl : BucketListFormulas) (bucket : Bucket) (ledger level : Nat)
    (isCurr : Bool)
    (hlc : ∀ i ∈ m.mEnabled, i.checkOnLedgerClose delta ≠ "" → i.isStrict = false)
    (hba : ∀ i ∈ m.mEnabled,
      i.checkOnBucketApply bucket (bucketOldestLedger bl ledger level isCurr)
        (bucketNewestLedger bl ledger level isCurr) ≠ "" → i.isStrict = false)
    (hoa : ∀ i ∈ m.mEnabled,
      i.checkOnOperationApply operation opres delta ≠ "" → i.isStrict = false)
    (hv : 8 ≤ delta.header.ledgerVersion) :
    checkedLCNames (m.checkOnLedgerClose txSet delta).2.1
        = m.mEnabled.map Invariant.name
    ∧ checkedBucketNames (m.checkOnBucketApply bl bucket ledger level isCurr).2.1
        = m.mEnabled.map Invariant.name
    ∧ checkedOpNames (m.checkOnOperationApply operation opres delta).2.1
        = m.mEnabled.map Invariant.name := by
  refine ⟨?_, ?_, ?_⟩
  · exact checkedLCNames_ledgerCloseLoop txSet delta m.mEnabled m.counters hlc
  · exact checkedBucketNames_bucketApplyLoop bucket _ _ level isCurr
      m.mEnabled m.counters hba
  · unfold InvariantManagerImpl.checkOnOperationApply
    rw [if_neg (by omega)]
    exact checkedOpNames_operationApplyLoop operation opres delta
      m.mEnabled m.counters hoa

theorem nonstrict_failures_never_stop_dispatch_witness :
    checkedLCNames (mBC.checkOnLedgerClose txSet0 deltaHigh).2.1
        = mBC.mEnabled.map Invariant.name
    ∧ checkedBucketNames (mBC.checkOnBucketApply blTest bucket0 100 2 true).2.1
        = mBC.mEnabled.map Invariant.name
    ∧ checkedOpNames (mBC.checkOnOperationApply op0 opres0 deltaHigh).2.1
        = mBC.mEnabled.map Invariant.name :=
  nonstrict_failures_never_stop_dispatch mBC txSet0 deltaHigh op0 opres0
    blTest bucket0 100 2 true (by decide) (by decide) (by decide) (by decide)

/-- C3 counterexample: at protocol version 10 (at least the threshold 8),
with strict A enabled before benign B, an operation apply on which A
reports a violation stops the loop, so the enabled invariant B is never
checked — refuting that at version 8 or above every enabled invariant is
checked. -/
theorem strict_failure_stops_operation_apply_dispatch :
    8 ≤ deltaHigh.header.ledgerVersion
    ∧ "B" ∈ mAB.mEnabled.map Invariant.name
    ∧ Event.checkedOperationApply "B"
        ∉ (mAB.checkOnOperationApply op0 opres0 deltaHigh).2.1 := by
  refine ⟨by decide, by decide, by decide⟩

/-- C3 (amended): below protocol version 8 an operation-apply call performs
no checks at all — no checker runs, the counters are untouched, no log
record is produced and the call returns normally; at version 8 or above
the dispatch loop runs for strict and non-strict invariants alike, and
checks exactly the full enablement list whenever no strict invariant
fails (a strict failure halts the remainder of the stage). -/
theorem operation_apply_version_gate (m : InvariantManagerImpl)
    (operation : Operation) (opres : OperationResult) (delta : LedgerDelta) :
    (delta.header.ledgerVersion < 8 →
      m.checkOnOperationApply operation opres delta = (m.counters, [], none))
    ∧ (8 ≤ delta.header.ledgerVersion →
        (∀ i ∈ m.mEnabled,
          i.checkOnOperationApply operation opres delta ≠ "" →
            i.isStrict = false) →
        checkedOpNames (m.checkOnOperationApply operation opres delta).2.1
          = m.mEnabled.map Invariant.name) := by
  constructor
  · intro hv
    simp [InvariantManagerImpl.checkOnOperationApply, hv]
  · intro hv hns
    unfold InvariantManagerImpl.checkOnOperationApply
    rw [if_neg (by omega)]
    exact checkedOpNames_operationApplyLoop operation opres delta
      m.mEnabled m.counters hns

theorem operation_apply_version_gate_witness :
    mAB.checkOnOperationApply op0 opres0 deltaLow = (mAB.counters, [], none)
    ∧ checkedOpNames (mBC.checkOnOperationApply op0 opres0 deltaHigh).2.1
        = mBC.mEnabled.map Invariant.name :=
  ⟨(operation_apply_version_gate mAB op0 opres0 deltaLow).1 (by decide),
   (operation_apply_version_gate mBC op0 opres0 deltaHigh).2
     (by decide) (by decide)⟩

/-- C4: at every bucket apply the oldest ledger handed to the checkers is
exactly the storage-hierarchy aging formula for the level, ledger and half,
and the newest equals oldest plus the segment size at that level and half
minus one, exactly, provided the external formula outputs are a genuine
uint32 segment (oldest at least 1 and no uint32 overflow of
oldest + size - 1); every checker invocation of the call carries exactly
this range, and when no strict invariant fails every enabled invariant
receives it. -/
theorem bucket_apply_range_exact (bl : BucketListFormulas)
    (m : InvariantManagerImpl) (bucket : Bucket) (ledger level : Nat)
    (isCurr : Bool)
    (h1 : 1 ≤ bucketOldestLedger bl ledger level isCurr)
    (h2 : bucketOldestLedger bl ledger level isCurr
            + bucketSegSize bl ledger level isCurr ≤ 2 ^ 32) :
    bucketNewestLedger bl ledger level isCurr
        = bucketOldestLedger bl ledger level isCurr
            + bucketSegSize bl ledger level isCurr - 1
    ∧ (∀ nm o n, Event.checkedBucketApply nm o n
          ∈ (m.checkOnBucketApply bl bucket ledger level isCurr).2.1 →
        o = bucketOldestLedger bl ledger level isCurr
        ∧ n = bucketOldestLedger bl ledger level isCurr
                + bucketSegSize bl ledger level isCurr - 1)
    ∧ ((∀ i ∈ m.mEnabled,
          i.checkOnBucketApply bucket (bucketOldestLedger bl ledger level isCurr)
            (bucketNewestLedger bl ledger level isCurr) ≠ "" →
            i.isStrict = false) →
        ∀ i ∈ m.mEnabled,
          Event.checkedBucketApply i.name
              (bucketOldestLedger bl ledger level isCurr)
              (bucketNewestLedger bl ledger level isCurr)
            ∈ (m.checkOnBucketApply bl bucket ledger level isCurr).2.1) := by
  have harith : bucketNewestLedger bl ledger level isCurr
      = bucketOldestLedger bl ledger level isCurr
          + bucketSegSize bl ledger level isCurr - 1 := by
    unfold bucketNewestLedger
    have h32 : (2 : Nat) ^ 32 = 4294967296 := by norm_num
    rw [h32] at h2 ⊢
    omega
  refine ⟨harith, ?_, ?_⟩
  · intro nm o n hmem
    have hr := bucketApplyLoop_range_fixed bucket
      (bucketOldestLedger bl ledger level isCurr)
      (bucketNewestLedger bl ledger level isCurr) level isCurr
      m.mEnabled m.counters nm o n hmem
    exact ⟨hr.1, harith ▸ hr.2⟩
  · intro hns i hi
    exact bucketApplyLoop_covers bucket
      (bucketOldestLedger bl ledger level isCurr)
      (bucketNewestLedger bl ledger level isCurr) level isCurr
      m.mEnabled m.counters hns i hi

theorem bucket_apply_range_exact_witness :
    bucketNewestLedger blTest 100 2 true
        = bucketOldestLedger blTest 100 2 true
            + bucketSegSize blTest 100 2 true - 1
    ∧ Event.checkedBucketApply "B" (bucketOldestLedger blTest 100 2 true)
          (bucketNewestLedger blTest 100 2 true)
        ∈ (mB.checkOnBucketApply blTest bucket0 100 2 true).2.1 :=
  ⟨(bucket_apply_range_exact blTest mB bucket0 100 2 true
      (by decide) (by decide)).1,
   (bucket_apply_range_exact blTest mB bucket0 100 2 true
      (by decide) (by decide)).2.2 (by decide) benignB (by simp [mB])⟩

/-- C5: dispatch order equals enable order at every stage — a successful
enable appends the name at the end of the enablement order, and the
sequence of checker invocations of every dispatch call is an initial
segment (in order) of the enablement list, so that of two enabled
invariants the earlier-enabled one is always checked first; dispatch is a
pure function of the manager state, hence deterministic. -/
theorem dispatch_order_is_enable_order (m : InvariantManagerImpl) (n : String)
    (txSet : TxSetFrame) (delta : LedgerDelta) (operation : Operation)
    (opres : OperationResult) (bl : BucketListFormulas) (bucket : Bucket)
    (ledger level : Nat) (isCurr : Bool) (hwf : ManagerWF m) :
    ((enableInvariant m n).2 = none →
      (enableInvariant m n).1.mEnabled.map Invariant.name
        = m.mEnabled.map Invariant.name ++ [n])
    ∧ (∃ k, checkedLCNames (m.checkOnLedgerClose txSet delta).2.1
        = (m.mEnabled.map Invariant.name).take k)
    ∧ (∃ k, checkedBucketNames
          (m.checkOnBucketApply bl bucket ledger level isCurr).2.1
        = (m.mEnabled.map Invariant.name).take k)
    ∧ (∃ k, checkedOpNames (m.checkOnOperationApply operation opres delta).2.1
        = (m.mEnabled.map Invariant.name).take k) := by
  obtain ⟨hsort, hkey, hen, hnodup⟩ := hwf
  refine ⟨?_, ?_, ?_, ?_⟩
  · intro hsucc
    cases hl : m.mInvariants.lookup n with
    | none =>
      exfalso
      simp [enableInvariant, hl] at hsucc
    | some v =>
      cases ha : m.mEnabled.any (fun j => j.name == v.name) with
      | true =>
        exfalso
        simp [enableInvariant, hl, ha] at hsucc
      | false =>
        have hm : (enableInvariant m n).1
            = { m with mEnabled := m.mEnabled ++ [v] } := by
          simp [enableInvariant, hl, ha]
        have hv : v.name = n := hkey (n, v) (mem_of_lookup_eq_some hl)
        rw [hm]
        simp [hv]
  · exact checkedLCNames_ledgerCloseLoop_take txSet delta m.mEnabled m.counters
  · exact checkedBucketNames_bucketApplyLoop_take bucket _ _ level isCurr
      m.mEnabled m.counters
  · unfold InvariantManagerImpl.checkOnOperationApply
    by_cases hv : delta.header.ledgerVersion < 8
    · rw [if_pos hv]
      exact ⟨0, by simp [checkedOpNames]⟩
    · rw [if_neg hv]
      exact checkedOpNames_operationApplyLoop_take operation opres delta
        m.mEnabled m.counters

theorem dispatch_order_is_enable_order_witness :
    (enableInvariant mReg "C").1.mEnabled.map Invariant.name
        = mReg.mEnabled.map Invariant.name ++ ["C"]
    ∧ ∃ k, checkedLCNames (mReg.checkOnLedgerClose txSet0 deltaHigh).2.1
        = (mReg.mEnabled.map Invariant.name).take k :=
  ⟨(dispatch_order_is_enable_order mReg "C" txSet0 deltaHigh op0 opres0
      blTest bucket0 100 2 true managerWF_mReg).1 (by decide),
   (dispatch_order_is_enable_order mReg "C" txSet0 deltaHigh op0 opres0
      blTest bucket0 100 2 true managerWF_mReg).2.1⟩

theorem registerInvariant_fresh (m : InvariantManagerImpl) (inv : Invariant)
    (hl : m.mInvariants.lookup inv.name = none) :
    registerInvariant m inv
      = ({ m with
            mInvariants := mapInsert m.mInvariants inv.name inv,
            counters := newCounter m.counters inv.name }, none) := by
  simp [registerInvariant, hl]

/-- C6: registering a name already in the registry always throws the
duplicate-name error and changes nothing; registering a fresh name
succeeds, stores the invariant in the registry under that name and creates
a zeroed failure counter for it on the metrics sink; two invariants with
distinct fresh names can be registered one after the other and both end up
stored (hence enable-eligible). -/
theorem registerInvariant_spec :
    (∀ (m : InvariantManagerImpl) (inv : Invariant),
      (m.mInvariants.lookup inv.name).isSome = true →
      registerInvariant m inv
        = (m, some (ConfigError.duplicateName
            ("Invariant " ++ inv.name ++ " already registered"))))
    ∧ (∀ (m : InvariantManagerImpl) (inv : Invariant),
        m.mInvariants.lookup inv.name = none →
        (registerInvariant m inv).2 = none
        ∧ (registerInvariant m inv).1.mInvariants.lookup inv.name = some inv
        ∧ hasCounter (registerInvariant m inv).1.counters inv.name = true
        ∧ (m.counters.lookup inv.name = none →
            counterVal (registerInvariant m inv).1.counters inv.name = 0))
    ∧ (∀ (m : InvariantManagerImpl) (i1 i2 : Invariant),
        i1.name ≠ i2.name →
        m.mInvariants.lookup i1.name = none →
        m.mInvariants.lookup i2.name = none →
        (registerInvariant m i1).2 = none
        ∧ (registerInvariant (registerInvariant m i1).1 i2).2 = none
        ∧ (registerInvariant (registerInvariant m i1).1 i2).1.mInvariants.lookup
            i1.name = some i1
        ∧ (registerInvariant (registerInvariant m i1).1 i2).1.mInvariants.lookup
            i2.name = some i2) := by
  refine ⟨?_, ?_, ?_⟩
  · intro m inv h
    cases hl : m.mInvariants.lookup inv.name with
    | none => rw [hl] at h; simp at h
    | some v => simp [registerInvariant, hl]
  · intro m inv hl
    have hreg : (registerInvariant m inv).1.mInvariants
        = mapInsert m.mInvariants inv.name inv := by
      simp [registerInvariant, hl]
    have hcnt : (registerInvariant m inv).1.counters
        = newCounter m.counters inv.name := by
      simp [registerInvariant, hl]
    refine ⟨by simp [registerInvariant, hl], ?_, ?_, ?_⟩
    · rw [hreg]
      exact lookup_mapInsert_self _ _ _
    · rw [hcnt]
      unfold hasCounter
      rw [lookup_newCounter_self]
      rfl
    · intro hc
      rw [hcnt]
      unfold counterVal
      rw [lookup_newCounter_self]
      simp [counterVal, hc]
  · intro m i1 i2 hne hl1 hl2
    have hreg1 : (registerInvariant m i1).1.mInvariants
        = mapInsert m.mInvariants i1.name i1 := by
      rw [registerInvariant_fresh m i1 hl1]
    have hl2' : (registerInvariant m i1).1.mInvariants.lookup i2.name = none := by
      rw [hreg1, lookup_mapInsert_other _ _ _ _ (Ne.symm hne)]
      exact hl2
    have hreg2 : (registerInvariant (registerInvariant m i1).1 i2).1.mInvariants
        = mapInsert (registerInvariant m i1).1.mInvariants i2.name i2 := by
      rw [registerInvariant_fresh _ i2 hl2']
    refine ⟨by rw [registerInvariant_fresh m i1 hl1],
      by rw [registerInvariant_fresh _ i2 hl2'], ?_, ?_⟩
    · rw [hreg2, lookup_mapInsert_other _ _ _ _ hne, hreg1]
      exact lookup_mapInsert_self _ _ _
    · rw [hreg2]
      exact lookup_mapInsert_self _ _ _

theorem registerInvariant_spec_witness :
    registerInvariant mAB strictA
        = (mAB, some (ConfigError.duplicateName
            ("Invariant " ++ strictA.name ++ " already registered")))
    ∧ (registerInvariant mB failC).2 = none
    ∧ (registerInvariant mB failC).1.mInvariants.lookup failC.name = some failC
    ∧ hasCounter (registerInvariant mB failC).1.counters failC.name = true
    ∧ counterVal (registerInvariant mB failC).1.counters failC.name = 0
    ∧ (registerInvariant (registerInvariant mEmpty strictA).1 benignB).2 = none
    ∧ (registerInvariant (registerInvariant mEmpty strictA).1
          benignB).1.mInvariants.lookup strictA.name = some strictA
    ∧ (registerInvariant (registerInvariant mEmpty strictA).1
          benignB).1.mInvariants.lookup benignB.name = some benignB :=
  ⟨registerInvariant_spec.1 mAB strictA (by decide),
   (registerInvariant_spec.2.1 mB failC (by rfl)).1,
   (registerInvariant_spec.2.1 mB failC (by rfl)).2.1,
   (registerInvariant_spec.2.1 mB failC (by rfl)).2.2.1,
   (registerInvariant_spec.2.1 mB failC (by rfl)).2.2.2 (by rfl),
   (registerInvariant_spec.2.2 mEmpty strictA benignB (by decide)
      (by rfl) (by rfl)).2.1,
   (registerInvariant_spec.2.2 mEmpty strictA benignB (by decide)
      (by rfl) (by rfl)).2.2.1,
   (registerInvariant_spec.2.2 mEmpty strictA benignB (by decide)
      (by rfl) (by rfl)).2.2.2⟩

theorem foldl_joinNames (l : List (String × Invariant)) (a : String) :
    l.foldl (fun acc p => acc ++ ", " ++ p.1) a
      = joinNames (a :: l.map Prod.fst) := by
  induction l generalizing a with
  | nil => rfl
  | cons p rest ih =>
    rw [List.foldl_cons, ih (a ++ ", " ++ p.1)]
    cases hr : rest.map Prod.fst with
    | nil => simp [joinNames, hr]
    | cons x xs => simp [joinNames, hr, String.append_assoc]

theorem registeredNames_eq_joinNames (l : List (String × Invariant))
    (h : l ≠ []) : registeredNames l = joinNames (l.map Prod.fst) := by
  cases l with
  | nil => exact absurd rfl h
  | cons p rest =>
    obtain ⟨k, v⟩ := p
    rw [registeredNames, foldl_joinNames]
    rfl

/-- C7: enabling a name absent from the registry throws the unknown-name
error whose message names the missing invariant and lists every currently
registered name in map-iteration order, or states explicitly that none are
registered when the registry is empty; for well-formed (key-sorted)
registries the listing depends only on the set of registered names, hence
is deterministic. -/
theorem enable_unknown_name_error (m : InvariantManagerImpl) (n : String)
    (habs : m.mInvariants.lookup n = none) :
    enableInvariant m n
      = (m, some (ConfigError.unknownInvariant
          (if m.mInvariants.length > 0 then
            "Invariant " ++ n ++ " is not registered."
              ++ " Registered invariants are: "
              ++ joinNames (m.mInvariants.map Prod.fst)
          else
            "Invariant " ++ n ++ " is not registered."
              ++ " There are no registered invariants")))
    ∧ (∀ m₂ : InvariantManagerImpl,
        m₂.mInvariants.lookup n = none →
        m.mInvariants.Pairwise (fun p q => p.1 < q.1) →
        m₂.mInvariants.Pairwise (fun p q => p.1 < q.1) →
        (m.mInvariants.map Prod.fst).Perm (m₂.mInvariants.map Prod.fst) →
        (enableInvariant m n).2 = (enableInvariant m₂ n).2) := by
  have hmsg : ∀ (m' : InvariantManagerImpl),
      m'.mInvariants.lookup n = none →
      enableInvariant m' n
        = (m', some (ConfigError.unknownInvariant
            (if m'.mInvariants.length > 0 then
              "Invariant " ++ n ++ " is not registered."
                ++ " Registered invariants are: "
                ++ joinNames (m'.mInvariants.map Prod.fst)
            else
              "Invariant " ++ n ++ " is not registered."
                ++ " There are no registered invariants"))) := by
    intro m' habs'
    by_cases hlen : m'.mInvariants.length > 0
    · have hne : m'.mInvariants ≠ [] := by
        intro he
        rw [he] at hlen
        simp at hlen
      simp [enableInvariant, habs', hlen, registeredNames_eq_joinNames _ hne]
    · simp [enableInvariant, habs', hlen]
  refine ⟨hmsg m habs, ?_⟩
  intro m₂ habs2 hs1 hs2 hperm
  have hkeys : m.mInvariants.map Prod.fst = m₂.mInvariants.map Prod.fst := by
    haveI : IsAntisymm String (· < ·) := ⟨fun a b h1 h2 => absurd h2 (lt_asymm h1)⟩
    exact List.eq_of_perm_of_sorted hperm
      (List.pairwise_map.mpr hs1) (List.pairwise_map.mpr hs2)
  have hlen : m.mInvariants.length = m₂.mInvariants.length := by
    have h := congrArg List.length hkeys
    simpa using h
  rw [hmsg m habs, hmsg m₂ habs2]
  simp [hkeys, hlen]

theorem enable_unknown_name_error_witness :
    enableInvariant mAB "Z"
      = (mAB, some (ConfigError.unknownInvariant
          (if mAB.mInvariants.length > 0 then
            "Invariant " ++ "Z" ++ " is not registered."
              ++ " Registered invariants are: "
              ++ joinNames (mAB.mInvariants.map Prod.fst)
          else
            "Invariant " ++ "Z" ++ " is not registered."
              ++ " There are no registered invariants"))) :=
  (enable_unknown_name_error mAB "Z" (by rfl)).1

/-- C8: enabling a registered name whose invariant is already in the
enablement list throws the already-enabled error and leaves the manager —
in particular the dispatch sequence, which therefore gains no duplicate
entry — exactly as it was. -/
theorem enable_already_enabled_error (m : InvariantManagerImpl) (n : String)
    (inv : Invariant) (hreg : m.mInvariants.lookup n = some inv)
    (hen : m.mEnabled.any (fun j => j.name == inv.name) = true) :
    enableInvariant m n
      = (m, some (ConfigError.alreadyEnabled
          ("Invariant " ++ n ++ " already enabled"))) := by
  simp [enableInvariant, hreg, hen]

theorem enable_already_enabled_error_witness :
    enableInvariant mAB "A"
      = (mAB, some (ConfigError.alreadyEnabled
          ("Invariant " ++ "A" ++ " already enabled"))) :=
  enable_already_enabled_error mAB "A" strictA (by rfl) (by decide)

end Stellar

